import Mathlib

/-!
Shallow embedding of the RabbitMQ queue-segment recovery tool
(source files `rabbitmq_recovery.py` and `recovery_improved_json.py`).

Bytes are modelled as `Nat` (file bytes are 0..255, but none of the
scanning logic below needs that bound), byte buffers as `List Nat`,
and Python strings as lists of code points.  Python's `d[i]` reads are
modelled with `List.getD d i 0`; every read performed by the embedded
code is guarded exactly as in the source, so the default is never
consulted on the paths the theorems talk about.  `while` loops are
embedded as structurally recursive functions on a fuel argument; the
fuel chosen at each entry point dominates the number of iterations, and
a stability lemma shows the value does not depend on the fuel once the
fuel is large enough.
-/

namespace Recovery

/-- Python slice `d[a:b]` for `0 ≤ a ≤ b` (clamped at the end of the list,
exactly like Python slicing). -/
def pySlice (d : List Nat) (a b : Nat) : List Nat :=
  (d.drop a).take (b - a)

/-- `int.from_bytes(d[pos:pos+4], byteorder='big')`. -/
def be32 (d : List Nat) (pos : Nat) : Nat :=
  d.getD pos 0 * 16777216 + d.getD (pos + 1) 0 * 65536 +
    d.getD (pos + 2) 0 * 256 + d.getD (pos + 3) 0

theorem pySlice_length (d : List Nat) (a b : Nat) (hb : b ≤ d.length) :
    (pySlice d a b).length = b - a := by
  simp [pySlice]
  omega

/-! ### Strategy B entry decoder
(`recovery_improved_json.py`, `extract_messages_from_erlang_entries`,
the `while pos < len(file_data)` loop; the limit/publishing layer of that
function is modelled separately below).

The source loop is `while pos < len(file_data): if pos + 8 > len: break; ...`.
Since `pos + 8 > len` already holds whenever `pos ≥ len`, the two stopping
conditions collapse into the single guard below. -/

/-- One run of the Strategy B cursor loop from cursor `pos`, returning the
sequence of entry bodies it slices.  Structural recursion on `fuel`; each
iteration advances the cursor by at least 1, so any fuel `≥ d.length - pos`
is enough (`extractEntriesGo_stable`). -/
def extractEntriesGo (d : List Nat) : Nat → Nat → List (List Nat)
  | 0, _ => []
  | fuel + 1, pos =>
    if pos + 8 > d.length then []
    else
      -- size = int.from_bytes(file_data[pos:pos+4], 'big')
      let size := be32 d pos
      if size = 0 ∨ size > 10 * 1024 * 1024 then
        -- corrupt header: resynchronize, advance by the header width only
        extractEntriesGo d fuel (pos + 8)
      else if pos + 8 + size > d.length then
        -- truncated file: stop without slicing
        []
      else
        pySlice d (pos + 8) (pos + 8 + size) :: extractEntriesGo d fuel (pos + 8 + size)

/-- The Strategy B entry decoder started at cursor `pos`. -/
def extractEntries (d : List Nat) (pos : Nat) : List (List Nat) :=
  extractEntriesGo d (d.length + 1) pos

/-- Strategy B starts its cursor after the 64-byte RCQS header. -/
def strategyBEntries (fileData : List Nat) : List (List Nat) :=
  extractEntries fileData 64

theorem extractEntriesGo_succ (d : List Nat) :
    ∀ fuel pos, d.length ≤ fuel + pos →
      extractEntriesGo d fuel pos = extractEntriesGo d (fuel + 1) pos := by
  intro fuel
  induction fuel with
  | zero =>
    intro pos h
    have h8 : pos + 8 > d.length := by omega
    simp [extractEntriesGo, h8]
  | succ fuel ih =>
    intro pos h
    by_cases h8 : pos + 8 > d.length
    · simp [extractEntriesGo, h8]
    · by_cases hsz : be32 d pos = 0 ∨ be32 d pos > 10 * 1024 * 1024
      · have e1 : extractEntriesGo d (fuel + 1) pos = extractEntriesGo d fuel (pos + 8) := by
          simp [extractEntriesGo, h8, hsz]
        have e2 : extractEntriesGo d (fuel + 1 + 1) pos =
            extractEntriesGo d (fuel + 1) (pos + 8) := by
          simp [extractEntriesGo, h8, hsz]
        rw [e1, e2, ih (pos + 8) (by omega)]
      · by_cases hfit : pos + 8 + be32 d pos > d.length
        · simp [extractEntriesGo, h8, hsz, hfit]
        · have e1 : extractEntriesGo d (fuel + 1) pos =
              pySlice d (pos + 8) (pos + 8 + be32 d pos) ::
                extractEntriesGo d fuel (pos + 8 + be32 d pos) := by
            simp [extractEntriesGo, h8, hsz, hfit]
          have e2 : extractEntriesGo d (fuel + 1 + 1) pos =
              pySlice d (pos + 8) (pos + 8 + be32 d pos) ::
                extractEntriesGo d (fuel + 1) (pos + 8 + be32 d pos) := by
            simp [extractEntriesGo, h8, hsz, hfit]
          rw [e1, e2, ih (pos + 8 + be32 d pos) (by omega)]

theorem extractEntriesGo_stable (d : List Nat) (fuel k pos : Nat)
    (h : d.length ≤ fuel + pos) :
    extractEntriesGo d fuel pos = extractEntriesGo d (fuel + k) pos := by
  induction k with
  | zero => rfl
  | succ k ih =>
    rw [ih]
    exact extractEntriesGo_succ d (fuel + k) pos (by omega)

theorem extractEntries_eq_go (d : List Nat) (fuel pos : Nat)
    (h : d.length ≤ fuel + pos) :
    extractEntries d pos = extractEntriesGo d fuel pos := by
  unfold extractEntries
  rcases Nat.le_total fuel (d.length + 1) with hle | hle
  · rw [extractEntriesGo_stable d fuel (d.length + 1 - fuel) pos h]
    congr 1
    omega
  · rw [extractEntriesGo_stable d (d.length + 1) (fuel - (d.length + 1)) pos (by omega)]
    congr 1
    omega

/-- C1: For every file buffer and every cursor position in Strategy B, the
entry decoder never reads past the end of the buffer: if fewer than 8 bytes
remain the loop stops; if the big-endian uint32 size is zero or exceeds
10 MiB the cursor advances by exactly 8; otherwise the cursor moves past the
8-byte header and, if fewer than `size` bytes remain, the loop stops without
slicing, else exactly `size` bytes are sliced as the entry body (an in-bounds
slice) and the cursor advances by `size`. -/
theorem entryDecoder_bounds (d : List Nat) (pos : Nat) :
    (pos + 8 > d.length → extractEntries d pos = [])
    ∧ (pos + 8 ≤ d.length → (be32 d pos = 0 ∨ be32 d pos > 10485760) →
        extractEntries d pos = extractEntries d (pos + 8))
    ∧ (pos + 8 ≤ d.length → 0 < be32 d pos → be32 d pos ≤ 10485760 →
        pos + 8 + be32 d pos > d.length → extractEntries d pos = [])
    ∧ (pos + 8 ≤ d.length → 0 < be32 d pos → be32 d pos ≤ 10485760 →
        pos + 8 + be32 d pos ≤ d.length →
        extractEntries d pos =
          pySlice d (pos + 8) (pos + 8 + be32 d pos) ::
            extractEntries d (pos + 8 + be32 d pos)
        ∧ (pySlice d (pos + 8) (pos + 8 + be32 d pos)).length = be32 d pos) := by
  have hunf : extractEntries d pos = extractEntriesGo d (d.length + 1) pos := rfl
  refine ⟨?_, ?_, ?_, ?_⟩
  · intro h
    rw [hunf]
    simp [extractEntriesGo, h]
  · intro h hsz
    have hsz' : be32 d pos = 0 ∨ be32 d pos > 10 * 1024 * 1024 := by simpa using hsz
    have h8 : ¬ (pos + 8 > d.length) := by omega
    rw [hunf]
    have e1 : extractEntriesGo d (d.length + 1) pos =
        extractEntriesGo d d.length (pos + 8) := by
      simp [extractEntriesGo, h8, hsz']
    rw [e1, ← extractEntries_eq_go d d.length (pos + 8) (by omega)]
  · intro h h0 hub hfit
    have h8 : ¬ (pos + 8 > d.length) := by omega
    have hsz' : ¬ (be32 d pos = 0 ∨ be32 d pos > 10 * 1024 * 1024) := by
      push_neg
      constructor <;> omega
    rw [hunf]
    simp [extractEntriesGo, h8, hsz', hfit]
  · intro h h0 hub hfit
    have h8 : ¬ (pos + 8 > d.length) := by omega
    have hsz' : ¬ (be32 d pos = 0 ∨ be32 d pos > 10 * 1024 * 1024) := by
      push_neg
      constructor <;> omega
    have hfit' : ¬ (pos + 8 + be32 d pos > d.length) := by omega
    constructor
    · rw [hunf]
      have e1 : extractEntriesGo d (d.length + 1) pos =
          pySlice d (pos + 8) (pos + 8 + be32 d pos) ::
            extractEntriesGo d d.length (pos + 8 + be32 d pos) := by
        simp [extractEntriesGo, h8, hsz', hfit']
      rw [e1, ← extractEntries_eq_go d d.length (pos + 8 + be32 d pos) (by omega)]
    · have := pySlice_length d (pos + 8) (pos + 8 + be32 d pos) (by omega)
      omega

/-- Concrete check of the C1 theorem: a 73-byte buffer (64-byte header plus a
valid header announcing a 1-byte entry) yields exactly that entry body, and a
buffer whose header claims more bytes than remain yields nothing. -/
theorem entryDecoder_bounds_witness :
    extractEntries (List.replicate 64 0 ++ [0, 0, 0, 1, 0, 0, 0, 0, 42]) 64 =
      [[42]] ∧
    extractEntries (List.replicate 64 0 ++ [0, 0, 0, 9, 0, 0, 0, 0, 42]) 64 = [] := by
  constructor
  · have h := (entryDecoder_bounds (List.replicate 64 0 ++ [0, 0, 0, 1, 0, 0, 0, 0, 42]) 64).2.2.2
      (by decide) (by decide) (by decide) (by decide)
    rw [h.1]
    have hb : be32 (List.replicate 64 0 ++ [0, 0, 0, 1, 0, 0, 0, 0, 42]) 64 = 1 := by decide
    rw [hb]
    have h2 := (entryDecoder_bounds (List.replicate 64 0 ++ [0, 0, 0, 1, 0, 0, 0, 0, 42])
      (64 + 8 + 1)).1 (by decide)
    rw [h2]
    decide
  · exact (entryDecoder_bounds (List.replicate 64 0 ++ [0, 0, 0, 9, 0, 0, 0, 0, 42]) 64).2.2.1
      (by decide) (by decide) (by decide) (by decide)

/-! ### Generic helpers: first/last matching index of a predicate
Python's `find`/`rfind` calls are modelled as `head?`/`getLast?` of a
filtered `List.range`, and these lemmas characterise them as the least /
greatest matching index. -/

theorem mem_filter_range {n : Nat} {p : Nat → Bool} {i : Nat} :
    i ∈ (List.range n).filter p ↔ i < n ∧ p i = true := by
  simp [List.mem_filter, List.mem_range]

theorem pairwise_filter_range (n : Nat) (p : Nat → Bool) :
    ((List.range n).filter p).Pairwise (· < ·) :=
  (List.pairwise_lt_range n).filter p

theorem head?_pairwise {α : Type} {R : α → α → Prop} {l : List α} (hs : l.Pairwise R)
    {a : α} (ha : l.head? = some a) : ∀ b ∈ l, b = a ∨ R a b := by
  cases l with
  | nil => cases ha
  | cons x xs =>
    simp only [List.head?_cons, Option.some.injEq] at ha
    subst ha
    intro b hb
    rcases List.mem_cons.mp hb with rfl | hb
    · exact Or.inl rfl
    · exact Or.inr ((List.pairwise_cons.mp hs).1 b hb)

theorem getLast?_pairwise {α : Type} {R : α → α → Prop} {l : List α} (hs : l.Pairwise R)
    {a : α} (ha : l.getLast? = some a) : ∀ b ∈ l, b = a ∨ R b a := by
  have h1 : l.reverse.head? = some a := by rw [List.head?_reverse]; exact ha
  have h2 : l.reverse.Pairwise (fun x y => R y x) := List.pairwise_reverse.mpr hs
  intro b hb
  rcases head?_pairwise h2 h1 b (by simpa using hb) with h | h
  · exact Or.inl h
  · exact Or.inr h

theorem head?_isSome_of_ne_nil {α : Type} {l : List α} (h : l ≠ []) :
    ∃ a, l.head? = some a := by
  cases l with
  | nil => exact absurd rfl h
  | cons x xs => exact ⟨x, rfl⟩

/-- Python `d.find(bytes([b]), s)`: the first index `≥ s` holding byte `b`
(`None` standing for Python's `-1`). -/
def pyFindFrom (d : List Nat) (b s : Nat) : Option Nat :=
  ((List.range d.length).filter (fun i => decide (s ≤ i) && (d.getD i 0 == b))).head?

/-- Python `d.rfind(bytes([b]))`: the last index holding byte `b`. -/
def pyRfindByte (d : List Nat) (b : Nat) : Option Nat :=
  ((List.range d.length).filter (fun i => d.getD i 0 == b)).getLast?

theorem pyFindFrom_mem_of_exists (d : List Nat) (b s : Nat)
    (h : ∃ i, i < d.length ∧ s ≤ i ∧ d.getD i 0 = b) :
    ∃ js, pyFindFrom d b s = some js := by
  obtain ⟨i, hi, hsi, hb⟩ := h
  apply head?_isSome_of_ne_nil
  intro hnil
  have : i ∈ (List.range d.length).filter (fun i => decide (s ≤ i) && (d.getD i 0 == b)) := by
    rw [mem_filter_range]
    refine ⟨hi, ?_⟩
    simp only [Bool.and_eq_true, decide_eq_true_eq, beq_iff_eq]
    exact ⟨hsi, hb⟩
  rw [hnil] at this
  cases this

theorem head?_mem {α : Type} {l : List α} {a : α} (h : l.head? = some a) : a ∈ l := by
  cases l with
  | nil => cases h
  | cons x xs =>
    simp only [List.head?_cons, Option.some.injEq] at h
    subst h
    exact List.mem_cons_self x xs

theorem getLast?_mem {α : Type} {l : List α} {a : α} (h : l.getLast? = some a) : a ∈ l := by
  have h1 : l.reverse.head? = some a := by rw [List.head?_reverse]; exact h
  simpa using head?_mem h1

theorem pyFindFrom_spec {d : List Nat} {b s js : Nat}
    (h : pyFindFrom d b s = some js) :
    js < d.length ∧ s ≤ js ∧ d.getD js 0 = b ∧
      ∀ k, k < d.length → s ≤ k → d.getD k 0 = b → js ≤ k := by
  have hmem := head?_mem h
  rw [mem_filter_range] at hmem
  obtain ⟨hlt, hp⟩ := hmem
  simp only [Bool.and_eq_true, decide_eq_true_eq, beq_iff_eq] at hp
  refine ⟨hlt, hp.1, hp.2, ?_⟩
  intro k hk hsk hbk
  have hkmem : k ∈ (List.range d.length).filter
      (fun i => decide (s ≤ i) && (d.getD i 0 == b)) := by
    rw [mem_filter_range]
    refine ⟨hk, ?_⟩
    simp only [Bool.and_eq_true, decide_eq_true_eq, beq_iff_eq]
    exact ⟨hsk, hbk⟩
  rcases head?_pairwise (pairwise_filter_range _ _) h k hkmem with rfl | hlt2
  · exact le_refl k
  · exact le_of_lt hlt2

theorem pyRfindByte_spec {d : List Nat} {b xe : Nat}
    (h : pyRfindByte d b = some xe) :
    xe < d.length ∧ d.getD xe 0 = b ∧
      ∀ k, k < d.length → d.getD k 0 = b → k ≤ xe := by
  have hmem := getLast?_mem h
  rw [mem_filter_range] at hmem
  obtain ⟨hlt, hp⟩ := hmem
  simp only [beq_iff_eq] at hp
  refine ⟨hlt, hp, ?_⟩
  intro k hk hbk
  have hkmem : k ∈ (List.range d.length).filter (fun i => d.getD i 0 == b) := by
    rw [mem_filter_range]
    refine ⟨hk, ?_⟩
    simp only [beq_iff_eq]
    exact hbk
  rcases getLast?_pairwise (pairwise_filter_range _ _) h k hkmem with rfl | hlt2
  · exact le_refl k
  · exact le_of_lt hlt2

/-! ### ContentSanitizer
(`recovery_improved_json.py`, `find_json_end` and `clean_message_content`).

`find_json_end` walks the buffer from `start`, tracking brace depth, string
state and a one-shot escape flag.  Bytes `≥ 128` produce `char = None` in the
source and match none of the comparisons, so the comparisons below (against
92, 34, 123, 125, all `< 128`) are exact.  The loop runs for exactly
`len - start` iterations, which is the fuel supplied. -/

def findJsonEndGo (d : List Nat) : Nat → Nat → Int → Bool → Bool → Nat
  | 0, _, _, _, _ => d.length
  | fuel + 1, i, depth, inString, escape =>
    if i < d.length then
      let byte := d.getD i 0
      if escape then findJsonEndGo d fuel (i + 1) depth inString false
      else if byte == 92 && inString then findJsonEndGo d fuel (i + 1) depth inString true
      else if byte == 34 then findJsonEndGo d fuel (i + 1) depth (!inString) false
      else if !inString && byte == 123 then
        findJsonEndGo d fuel (i + 1) (depth + 1) inString false
      else if !inString && byte == 125 then
        if depth - 1 = 0 then i + 1
        else findJsonEndGo d fuel (i + 1) (depth - 1) inString false
      else findJsonEndGo d fuel (i + 1) depth inString false
    else d.length

/-- `find_json_end(data, start)`: position one past the brace closing the
structure that starts at `start`, or `len(data)` if depth never returns
to zero. -/
def findJsonEnd (d : List Nat) (start : Nat) : Nat :=
  findJsonEndGo d (d.length - start) start 0 false false

/-- `find_json_end` returns either `len(data)` or `j + 1` for some `}`
byte at an index `j ≥ i` inside the buffer. -/
theorem findJsonEndGo_range (d : List Nat) :
    ∀ fuel i depth inString escape,
      findJsonEndGo d fuel i depth inString escape = d.length ∨
      ∃ j, i ≤ j ∧ j < d.length ∧ d.getD j 0 = 125 ∧
        findJsonEndGo d fuel i depth inString escape = j + 1 := by
  intro fuel
  induction fuel with
  | zero => intro i depth inString escape; left; rfl
  | succ fuel ih =>
    intro i depth inString escape
    by_cases hi : i < d.length
    · rw [findJsonEndGo]
      simp only [hi, if_true]
      have step : ∀ depth' inString' escape',
          findJsonEndGo d fuel (i + 1) depth' inString' escape' = d.length ∨
          ∃ j, i ≤ j ∧ j < d.length ∧ d.getD j 0 = 125 ∧
            findJsonEndGo d fuel (i + 1) depth' inString' escape' = j + 1 := by
        intro depth' inString' escape'
        rcases ih (i + 1) depth' inString' escape' with h | ⟨j, hj1, hj2, hj3, hj4⟩
        · exact Or.inl h
        · exact Or.inr ⟨j, by omega, hj2, hj3, hj4⟩
      split_ifs with h1 h2 h3 h4 h5 h6
      · exact step _ _ _
      · exact step _ _ _
      · exact step _ _ _
      · exact step _ _ _
      · right
        refine ⟨i, le_refl i, hi, ?_, rfl⟩
        simp only [Bool.and_eq_true, Bool.not_eq_true', beq_iff_eq] at h5
        exact h5.2
      · exact step _ _ _
      · exact step _ _ _
    · rw [findJsonEndGo, if_neg hi]
      exact Or.inl rfl

theorem findJsonEnd_le (d : List Nat) (start : Nat) : findJsonEnd d start ≤ d.length := by
  rcases findJsonEndGo_range d (d.length - start) start 0 false false with h | ⟨j, _, hj2, _, hj4⟩
  · rw [findJsonEnd, h]
  · rw [findJsonEnd, hj4]; omega

theorem findJsonEnd_last_byte (d : List Nat) (start : Nat) :
    findJsonEnd d start = d.length ∨ d.getD (findJsonEnd d start - 1) 0 = 125 := by
  rcases findJsonEndGo_range d (d.length - start) start 0 false false with h | ⟨j, _, _, hj3, hj4⟩
  · left; rw [findJsonEnd, h]
  · right; rw [findJsonEnd, hj4]; simpa using hj3

/-- When the scan starts on a `{` byte, the first step pushes depth to 1,
so the returned position is strictly past `start`. -/
theorem findJsonEnd_gt_start (d : List Nat) (start : Nat)
    (hs : start < d.length) (hb : d.getD start 0 = 123) :
    start < findJsonEnd d start := by
  obtain ⟨f, hf⟩ : ∃ f, d.length - start = f + 1 := ⟨d.length - start - 1, by omega⟩
  rw [findJsonEnd, hf, findJsonEndGo]
  simp only [hs, if_true, hb]
  norm_num
  rcases findJsonEndGo_range d f (start + 1) 1 false false with h | ⟨j, hj1, _, _, hj4⟩
  · rw [h]; omega
  · rw [hj4]; omega

/-! Strategy 3 of `clean_message_content` (plain-text fallback).  The UTF-8
decode with `errors='ignore'` and `str.isprintable` are modelled at the
ASCII level: code points `≥ 128` are dropped by the decode model, and
printability for the remaining ASCII bytes is exactly `32..126`.  None of the
theorems below depend on this branch; it is embedded for completeness. -/

/-- ASCII whitespace stripped by `bytes.strip()`. -/
def isPyWs (c : Nat) : Bool :=
  c == 9 || c == 10 || c == 11 || c == 12 || c == 13 || c == 32

def pyBytesStrip (s : List Nat) : List Nat :=
  ((s.dropWhile isPyWs).reverse.dropWhile isPyWs).reverse

/-- `bytes([a, b]) in l`. -/
def hasPair (a b : Nat) : List Nat → Bool
  | [] => false
  | [_] => false
  | x :: y :: rest => (x == a && y == b) || hasPair a b (y :: rest)

/-- Python `l.rfind(bytes([a, b]))`: last index where the two-byte pattern
starts (the match must lie inside the buffer). -/
def pyRfindPair (l : List Nat) (a b : Nat) : Option Nat :=
  ((List.range l.length).filter
    (fun i => decide (i + 2 ≤ l.length) && (l.getD i 0 == a) && (l.getD (i + 1) 0 == b))).getLast?

def pyPrintableOrNlTab (c : Nat) : Bool :=
  (decide (32 ≤ c) && decide (c ≤ 126)) || c == 10 || c == 13 || c == 9

/-- Trailing trim of `clean_message_content`: keep everything up to the last
printable (or `\n\r\t`) character; if no character qualifies the loop never
breaks and the whole string is kept. -/
def trimEnd (s : List Nat) : List Nat :=
  match ((List.range s.length).filter (fun i => pyPrintableOrNlTab (s.getD i 0))).getLast? with
  | some i => s.take (i + 1)
  | none => s

def fallbackClean (raw : List Nat) : List Nat :=
  let content := pyBytesStrip raw
  let content :=
    if hasPair 106 116 (content.drop (content.length - 20)) then
      match pyRfindPair content 106 116 with
      | some p => content.take p
      | none => content
    else content
  trimEnd (content.filter (fun c => decide (c < 128)))

/-- Strategies 2 and 3 of `clean_message_content` (reached only when the
JSON branch does not return). -/
def cleanXmlOrText (raw : List Nat) : List Nat :=
  if 60 ∈ raw then
    match pyFindFrom raw 60 0, pyRfindByte raw 62 with
    | some xs, some xe =>
      if xs < xe then pySlice raw xs (xe + 1) else fallbackClean raw
    | _, _ => fallbackClean raw
  else fallbackClean raw

/-- `clean_message_content`.  The `none` arm of the match is unreachable:
`raw.find(b'\x7b')` succeeds whenever the byte occurs. -/
def cleanMessageContent (raw : List Nat) : List Nat :=
  if 123 ∈ raw then
    match pyFindFrom raw 123 0 with
    | some js =>
      let je := findJsonEnd raw js
      if js < je then pySlice raw js je else cleanXmlOrText raw
    | none => cleanXmlOrText raw
  else cleanXmlOrText raw

/-- The bytes `prefix{"a":{"b":"}\\"}"}}suffix` (two literal backslashes,
as written in the claim). -/
def c2two : List Nat :=
  [112, 114, 101, 102, 105, 120, 123, 34, 97, 34, 58, 123, 34, 98, 34, 58,
   34, 125, 92, 92, 34, 125, 34, 125, 125, 115, 117, 102, 102, 105, 120]

/-- The slice `{"a":{"b":"}\\"}"}}` the claim expects to be returned. -/
def c2twoClaimed : List Nat :=
  [123, 34, 97, 34, 58, 123, 34, 98, 34, 58, 34, 125, 92, 92, 34, 125, 34, 125, 125]

/-- The bytes `prefix{"a":{"b":"}\"}"}}suffix` (single backslash). -/
def c2one : List Nat :=
  [112, 114, 101, 102, 105, 120, 123, 34, 97, 34, 58, 123, 34, 98, 34, 58,
   34, 125, 92, 34, 125, 34, 125, 125, 115, 117, 102, 102, 105, 120]

/-- C2 counterexample: on the claim's concrete bytes (two literal
backslashes) the matcher does NOT return the balanced slice
`{"a":{"b":"}\\"}"}}`.  After the escaped backslash the quote at index 20
closes the string, the brace at 21 drops depth to 1, and the quote at 22
re-enters string state, so the final braces are read inside a string and
depth never returns to zero: the sanitizer returns everything from the
first `{` to the end of the input, including `suffix`. -/
theorem jsonBoundary_claim_cex :
    cleanMessageContent c2two = c2two.drop 6 ∧
    cleanMessageContent c2two ≠ c2twoClaimed := by
  constructor
  · decide
  · decide

/-- C2 amended: the matcher scans from the first `{` counting depth with
string/escape handling as claimed; on the single-backslash variant
`prefix{"a":{"b":"}\"}"}}suffix` it returns exactly the balanced slice
`{"a":{"b":"}\"}"}}` — depth returns to zero at the `}` at index 23 and
the slice ends there, excluding `suffix` (unlike the two-backslash bytes
used by the claim, on which the scan runs to the end of the input). -/
theorem jsonBoundary_balanced_example :
    cleanMessageContent c2one =
      [123, 34, 97, 34, 58, 123, 34, 98, 34, 58, 34, 125, 92, 34, 125, 34, 125, 125] ∧
    findJsonEnd c2one 6 = 24 ∧ c2one.getD 23 0 = 125 := by
  refine ⟨by decide, by decide, by decide⟩

/-- C10: whenever the input contains a `{` byte, `clean_message_content`
returns the slice starting at the first `{`; the slice ends one past a `}`
byte (the brace at which depth returned to zero) or extends to the end of
the input when the braces never rebalance; the XML and plain-text branches
are not consulted. -/
theorem contentSanitizer_json_branch (raw : List Nat) (hmem : 123 ∈ raw) :
    ∃ js, pyFindFrom raw 123 0 = some js ∧ raw.getD js 0 = 123 ∧
      (∀ k, k < js → raw.getD k 0 ≠ 123) ∧
      cleanMessageContent raw = pySlice raw js (findJsonEnd raw js) ∧
      js < findJsonEnd raw js ∧ findJsonEnd raw js ≤ raw.length ∧
      (findJsonEnd raw js = raw.length ∨ raw.getD (findJsonEnd raw js - 1) 0 = 125) := by
  obtain ⟨i, hilt, hieq⟩ := List.getElem_of_mem hmem
  obtain ⟨js, hjs⟩ := pyFindFrom_mem_of_exists raw 123 0
    ⟨i, hilt, Nat.zero_le i, by rw [List.getD_eq_getElem _ _ hilt]; exact hieq⟩
  have hspec := pyFindFrom_spec hjs
  have hje := findJsonEnd_gt_start raw js hspec.1 hspec.2.2.1
  refine ⟨js, hjs, hspec.2.2.1, ?_, ?_, hje, findJsonEnd_le raw js,
    findJsonEnd_last_byte raw js⟩
  · intro k hk hcontra
    have := hspec.2.2.2 k (lt_trans hk hspec.1) (Nat.zero_le k) hcontra
    omega
  · unfold cleanMessageContent
    rw [if_pos hmem, hjs]
    simp only [hje, if_true]

/-- Concrete check of the C10 theorem on the buffer `a{}b`. -/
theorem contentSanitizer_json_branch_witness :
    ∃ js, pyFindFrom [97, 123, 125, 98] 123 0 = some js ∧
      List.getD [97, 123, 125, 98] js 0 = 123 ∧
      (∀ k, k < js → List.getD [97, 123, 125, 98] k 0 ≠ 123) ∧
      cleanMessageContent [97, 123, 125, 98] =
        pySlice [97, 123, 125, 98] js (findJsonEnd [97, 123, 125, 98] js) ∧
      js < findJsonEnd [97, 123, 125, 98] js ∧
      findJsonEnd [97, 123, 125, 98] js ≤ List.length [97, 123, 125, 98] ∧
      (findJsonEnd [97, 123, 125, 98] js = List.length [97, 123, 125, 98] ∨
        List.getD [97, 123, 125, 98] (findJsonEnd [97, 123, 125, 98] js - 1) 0 = 125) :=
  contentSanitizer_json_branch [97, 123, 125, 98] (by decide)

/-! ### TermPayloadExtractor
(`recovery_improved_json.py`, `extract_payload_from_erlang`).

The loop guard is `while pos < len(data) - 5` (Python integers, so the
subtraction may be negative); for natural numbers this is exactly
`pos + 5 < len`.  Each iteration advances `pos` by at least one, so fuel
`d.length` dominates the iteration count from `pos = 0`. -/

/-- The candidate length: `int.from_bytes(data[pos+1:pos+5], 'big')`. -/
def candLen (d : List Nat) (pos : Nat) : Nat := be32 d (pos + 1)

/-- `0x6d` tag at `pos` (the source also tests `ord('m')`, the same value),
with `pos + 5 <= len(data)`, `10 <= length <= 1024*1024`, and
`pos + 5 + length <= len(data)`: the guards under which the source consumes
`tag+length+body` in one step. -/
def candOK (d : List Nat) (pos : Nat) : Bool :=
  (d.getD pos 0 == 109) && decide (pos + 5 ≤ d.length) &&
    decide (10 ≤ candLen d pos) && decide (candLen d pos ≤ 1048576) &&
    decide (pos + 5 + candLen d pos ≤ d.length)

/-- `binary_data = data[pos+5 : pos+5+length]`. -/
def theCand (d : List Nat) (pos : Nat) : List Nat :=
  pySlice d (pos + 5) (pos + 5 + candLen d pos)

/-- `sum(1 for b in binary_data[:100] if 32 <= b <= 126)`. -/
def printableCount (l : List Nat) : Nat :=
  (l.take 100).countP (fun b => decide (32 ≤ b) && decide (b ≤ 126))

/-- The `largest_binary` update: replace only when strictly longer and the
printable heuristic passes. -/
def bestUpd (best c : List Nat) : List Nat :=
  if best.length < c.length then
    if 10 < printableCount c then c else best
  else best

def extractPayloadGo (d : List Nat) : Nat → Nat → List Nat → List Nat
  | 0, _, best => best
  | fuel + 1, pos, best =>
    if pos + 5 < d.length then
      if candOK d pos then
        extractPayloadGo d fuel (pos + 5 + candLen d pos) (bestUpd best (theCand d pos))
      else extractPayloadGo d fuel (pos + 1) best
    else best

/-- `extract_payload_from_erlang(data)` (the scan itself; the caller strips
a leading `0x83` marker before invoking it). -/
def extract_payload_from_erlang (d : List Nat) : List Nat :=
  extractPayloadGo d d.length 0 []

/-- The candidates the scan actually considers, in scan order: the same
traversal as `extractPayloadGo`, recording each consumed candidate. -/
def consideredGo (d : List Nat) : Nat → Nat → List (List Nat)
  | 0, _ => []
  | fuel + 1, pos =>
    if pos + 5 < d.length then
      if candOK d pos then theCand d pos :: consideredGo d fuel (pos + 5 + candLen d pos)
      else consideredGo d fuel (pos + 1)
    else []

def consideredCands (d : List Nat) : List (List Nat) :=
  consideredGo d d.length 0

theorem extractPayloadGo_eq_foldl (d : List Nat) :
    ∀ fuel pos best,
      extractPayloadGo d fuel pos best = (consideredGo d fuel pos).foldl bestUpd best := by
  intro fuel
  induction fuel with
  | zero => intro pos best; rfl
  | succ fuel ih =>
    intro pos best
    by_cases h5 : pos + 5 < d.length
    · by_cases hc : candOK d pos
      · simp only [extractPayloadGo, consideredGo, h5, if_true, hc, List.foldl_cons]
        exact ih _ _
      · simp only [extractPayloadGo, consideredGo, h5, if_true, hc, if_false]
        exact ih _ _
    · simp [extractPayloadGo, consideredGo, h5]

/-- The fold keeping the first strictly-largest passing element computes a
maximum of the passing elements. -/
theorem foldl_bestUpd_max (l : List (List Nat)) :
    ∀ best : List Nat,
      (l.foldl bestUpd best = best ∧
        ∀ c ∈ l, 10 < printableCount c → c.length ≤ best.length) ∨
      (l.foldl bestUpd best ∈ l ∧ 10 < printableCount (l.foldl bestUpd best) ∧
        best.length < (l.foldl bestUpd best).length ∧
        ∀ c ∈ l, 10 < printableCount c → c.length ≤ (l.foldl bestUpd best).length) := by
  induction l with
  | nil =>
    intro best
    left
    exact ⟨rfl, by intro c hc; cases hc⟩
  | cons c l ih =>
    intro best
    rw [List.foldl_cons]
    by_cases hlen : best.length < c.length
    · by_cases hpass : 10 < printableCount c
      · have hupd : bestUpd best c = c := by simp [bestUpd, hlen, hpass]
        rw [hupd]
        rcases ih c with ⟨heq, hall⟩ | ⟨hmem, hp, hlt, hall⟩
        · right
          rw [heq]
          exact ⟨List.mem_cons_self c l, hpass, hlen,
            fun x hx hpx => by
              rcases List.mem_cons.mp hx with rfl | hx
              · exact le_refl _
              · exact hall x hx hpx⟩
        · right
          exact ⟨List.mem_cons_of_mem c hmem, hp, lt_trans hlen hlt,
            fun x hx hpx => by
              rcases List.mem_cons.mp hx with rfl | hx
              · exact le_of_lt hlt
              · exact hall x hx hpx⟩
      · have hupd : bestUpd best c = best := by simp [bestUpd, hlen, hpass]
        rw [hupd]
        rcases ih best with ⟨heq, hall⟩ | ⟨hmem, hp, hlt, hall⟩
        · left
          exact ⟨heq, fun x hx hpx => by
            rcases List.mem_cons.mp hx with rfl | hx
            · exact absurd hpx hpass
            · exact hall x hx hpx⟩
        · right
          exact ⟨List.mem_cons_of_mem c hmem, hp, hlt,
            fun x hx hpx => by
              rcases List.mem_cons.mp hx with rfl | hx
              · exact absurd hpx hpass
              · exact hall x hx hpx⟩
    · have hupd : bestUpd best c = best := by simp [bestUpd, hlen]
      rw [hupd]
      rcases ih best with ⟨heq, hall⟩ | ⟨hmem, hp, hlt, hall⟩
      · left
        exact ⟨heq, fun x hx hpx => by
          rcases List.mem_cons.mp hx with rfl | hx
          · omega
          · exact hall x hx hpx⟩
      · right
        exact ⟨List.mem_cons_of_mem c hmem, hp, hlt,
          fun x hx hpx => by
            rcases List.mem_cons.mp hx with rfl | hx
            · omega
            · exact hall x hx hpx⟩

/-- Buffer with two top-level `BINARY_EXT` candidates of lengths 15 and 40,
both passing the printable check. -/
def c3pair : List Nat :=
  [109, 0, 0, 0, 15] ++ List.replicate 15 65 ++ [109, 0, 0, 0, 40] ++ List.replicate 40 66

/-- C3 (amended): the scan considers candidates left to right, skipping the
bytes consumed by any length-valid candidate; the result is either empty
(when no considered candidate passes the printable check) or the first
considered candidate of maximal length among those passing the check; in
particular for two consecutive passing candidates of lengths 15 and 40 it
returns the 40-byte candidate. -/
theorem termPayload_largest :
    (∀ d : List Nat,
      (extract_payload_from_erlang d = [] ∧
        ∀ c ∈ consideredCands d, ¬ 10 < printableCount c) ∨
      (extract_payload_from_erlang d ∈ consideredCands d ∧
        10 < printableCount (extract_payload_from_erlang d) ∧
        ∀ c ∈ consideredCands d, 10 < printableCount c →
          c.length ≤ (extract_payload_from_erlang d).length)) ∧
    extract_payload_from_erlang c3pair = List.replicate 40 66 := by
  constructor
  · intro d
    have hfold : extract_payload_from_erlang d = (consideredCands d).foldl bestUpd [] :=
      extractPayloadGo_eq_foldl d d.length 0 []
    rcases foldl_bestUpd_max (consideredCands d) [] with ⟨heq, hall⟩ | ⟨hmem, hp, _, hall⟩
    · left
      refine ⟨by rw [hfold, heq], ?_⟩
      intro c hc hpass
      have := hall c hc hpass
      simp only [List.length_nil, Nat.le_zero, List.length_eq_zero] at this
      subst this
      simp [printableCount] at hpass
    · right
      rw [hfold]
      exact ⟨hmem, hp, hall⟩
  · decide

/-- Concrete check of the C3 theorem: on the two-candidate buffer the
result is a considered candidate, passes the printable check, and is at
least as long as every passing considered candidate. -/
theorem termPayload_largest_witness :
    extract_payload_from_erlang c3pair ∈ consideredCands c3pair ∧
    10 < printableCount (extract_payload_from_erlang c3pair) ∧
    ∀ c ∈ consideredCands c3pair, 10 < printableCount c →
      c.length ≤ (extract_payload_from_erlang c3pair).length :=
  (termPayload_largest.1 c3pair).resolve_left (by decide)

/-- The selection rule exactly as the claim words it: among ALL byte
positions carrying tag `0x6d` with a length in `[10, 1 MiB]` whose body fits
the rest of the buffer, keep the largest slice passing the printable
check. -/
def claimIsCandidateAt (d : List Nat) (p : Nat) : Bool :=
  (d.getD p 0 == 109) && decide (10 ≤ be32 d (p + 1)) &&
    decide (be32 d (p + 1) ≤ 1048576) && decide (p + 5 + be32 d (p + 1) ≤ d.length)

def claimCandidates (d : List Nat) : List (List Nat) :=
  ((List.range d.length).filter (claimIsCandidateAt d)).map
    (fun p => pySlice d (p + 5) (p + 5 + be32 d (p + 1)))

def claimLargestQualifying (d : List Nat) : List Nat :=
  (claimCandidates d).foldl bestUpd []

/-- A 155-byte buffer: one length-valid outer candidate (150 bytes, all
zeros in its first 100 bytes, so it fails the printable check) whose body
contains, at offset 120, a nested candidate of 20 printable bytes. -/
def c3nested : List Nat :=
  [109, 0, 0, 0, 150] ++
    (List.replicate 120 0 ++ [109, 0, 0, 0, 20] ++ List.replicate 20 65 ++
      List.replicate 5 0)

set_option maxRecDepth 4000 in
/-- C3 counterexample: the code returns the empty byte string on
`c3nested`, although a qualifying `BINARY_EXT` candidate (the nested
20-byte printable one) exists: the scan jumped over it because the outer
length-valid candidate consumed its bytes even though the outer candidate
failed the printable check.  The claim ("returns the single largest
candidate whose first 100 bytes contain more than 10 printable bytes")
demands the nested candidate here. -/
theorem termPayload_claim_cex :
    extract_payload_from_erlang c3nested = [] ∧
    claimLargestQualifying c3nested = List.replicate 20 65 ∧
    claimLargestQualifying c3nested ≠ extract_payload_from_erlang c3nested := by
  refine ⟨by decide, by decide, by decide⟩

/-- The advance rule of the scan as implemented: the position jumps past
`tag+length+body` exactly when the tag/length/fit guards hold — the
printable check plays no role in advancement. -/
def scanStepPos (d : List Nat) (pos : Nat) : Nat :=
  if candOK d pos then pos + 5 + candLen d pos else pos + 1

/-- The advance rule exactly as the claim words it: the jump happens only
when the candidate is also accepted by the printable check. -/
def claimStepC7 (d : List Nat) (pos : Nat) : Nat :=
  if candOK d pos && decide (10 < printableCount (theCand d pos)) then
    pos + 5 + candLen d pos
  else pos + 1

/-- A length-valid candidate of size 10 whose body is all zeros: it fails
the printable check. -/
def c7ex : List Nat := [109, 0, 0, 0, 10] ++ List.replicate 10 0

/-- C7 counterexample: at position 0 of `c7ex` the candidate is length-valid
but fails the printable check; the code advances past the whole candidate
(to 15), while the claim's advance rule says it should advance by one byte
(to 1). -/
theorem termScan_claim_cex :
    scanStepPos c7ex 0 = 15 ∧ claimStepC7 c7ex 0 = 1 ∧
    scanStepPos c7ex 0 ≠ claimStepC7 c7ex 0 := by
  refine ⟨by decide, by decide, by decide⟩

theorem candOK_iff (d : List Nat) (pos : Nat) :
    candOK d pos = true ↔
      d.getD pos 0 = 109 ∧ pos + 5 ≤ d.length ∧ 10 ≤ be32 d (pos + 1) ∧
        be32 d (pos + 1) ≤ 1048576 ∧ pos + 5 + be32 d (pos + 1) ≤ d.length := by
  simp only [candOK, candLen, Bool.and_eq_true, decide_eq_true_eq, beq_iff_eq]
  tauto

/-- C7 (amended): the scan position advances past the consumed
`tag+length+body` exactly when the tag is `0x6d` and the decoded length is
in `[10, 1 MiB]` and the body fits the buffer — regardless of the printable
check, which only gates the `largest_binary` replacement; at every other
position the scan advances by exactly one byte; and one iteration of the
extraction loop moves the cursor to `scanStepPos`. -/
theorem termScan_advance (d : List Nat) (pos : Nat) :
    ((d.getD pos 0 = 109 ∧ pos + 5 ≤ d.length ∧ 10 ≤ be32 d (pos + 1) ∧
        be32 d (pos + 1) ≤ 1048576 ∧ pos + 5 + be32 d (pos + 1) ≤ d.length) →
      scanStepPos d pos = pos + 5 + be32 d (pos + 1))
    ∧ (¬ (d.getD pos 0 = 109 ∧ pos + 5 ≤ d.length ∧ 10 ≤ be32 d (pos + 1) ∧
        be32 d (pos + 1) ≤ 1048576 ∧ pos + 5 + be32 d (pos + 1) ≤ d.length) →
      scanStepPos d pos = pos + 1)
    ∧ ∀ fuel best,
        extractPayloadGo d (fuel + 1) pos best =
          if pos + 5 < d.length then
            extractPayloadGo d fuel (scanStepPos d pos)
              (if candOK d pos then bestUpd best (theCand d pos) else best)
          else best := by
  refine ⟨?_, ?_, ?_⟩
  · intro h
    have hc : candOK d pos = true := (candOK_iff d pos).mpr h
    simp [scanStepPos, hc, candLen]
  · intro h
    have hc : candOK d pos = false := by
      rcases Bool.eq_false_or_eq_true (candOK d pos) with hf | ht
      · exact absurd ((candOK_iff d pos).mp hf) h
      · exact ht
    simp [scanStepPos, hc]
  · intro fuel best
    by_cases h5 : pos + 5 < d.length
    · by_cases hc : candOK d pos
      · simp [extractPayloadGo, h5, hc, scanStepPos, candLen]
      · simp [extractPayloadGo, h5, hc, scanStepPos]
    · simp [extractPayloadGo, h5]

/-- Concrete check of the C7 theorem: the jump on the printable-failing
candidate of `c7ex`, the single-byte advance on a non-tag buffer, and one
loop iteration on `c7ex`. -/
theorem termScan_advance_witness :
    scanStepPos c7ex 0 = 0 + 5 + be32 c7ex 1 ∧
    scanStepPos (List.replicate 7 0) 0 = 1 ∧
    extractPayloadGo c7ex 1 0 [] =
      (if 0 + 5 < c7ex.length then
        extractPayloadGo c7ex 0 (scanStepPos c7ex 0)
          (if candOK c7ex 0 then bestUpd [] (theCand c7ex 0) else [])
      else []) :=
  ⟨(termScan_advance c7ex 0).1 (by decide),
   (termScan_advance (List.replicate 7 0) 0).2.1 (by decide),
   (termScan_advance c7ex 0).2.2 0 []⟩

/-! ### RecoveryPipeline counting skeleton
(`recovery_improved_json.py`, `process_files` and the publish/limit logic of
`extract_messages_from_erlang_entries`).

Each file is abstracted to the validity outcomes of its successive candidate
payloads: a `true` is a candidate that passes decoding and validation and is
published.  `publishInFile` mirrors the per-file loop: `messages_published`
starts at 0 for each file, and the mid-file check is
`if message_limit > 0 and messages_published >= message_limit: break` —
against the PER-FILE counter.  `processFilesAux` mirrors the outer loop of
`process_files`, including the `len(files[:idx+1]) > file_limit` check and
the between-files check of the cumulative total. -/

def publishInFile (limit : Nat) : List Bool → Nat → Nat
  | [], k => k
  | v :: rest, k =>
    if v then
      if 0 < limit ∧ limit ≤ k + 1 then k + 1
      else publishInFile limit rest (k + 1)
    else publishInFile limit rest k

def publishCount (limit : Nat) (vs : List Bool) : Nat := publishInFile limit vs 0

def processFilesAux (msgLimit fileLimit : Nat) : List (List Bool) → Nat → Nat → Nat
  | [], _, total => total
  | f :: rest, idx, total =>
    if 0 < fileLimit ∧ fileLimit < idx + 1 then total
    else
      let total' := total + publishCount msgLimit f
      if 0 < msgLimit ∧ msgLimit ≤ total' then total'
      else processFilesAux msgLimit fileLimit rest (idx + 1) total'

def totalPublished (msgLimit fileLimit : Nat) (files : List (List Bool)) : Nat :=
  processFilesAux msgLimit fileLimit files 0 0

/-- C5 failing run: message limit 2, no file limit, a first file yielding one
valid message and a second file yielding two.  The first file publishes 1
(cumulative 1 < 2, run continues); in the second file the PER-FILE counter
is compared against the limit, so it publishes 2 more before stopping: the
cumulative count reaches 3, exceeding the limit of 2.  (In
`rabbitmq_recovery.py` the overrun is worse: its per-file loop has no
message-limit check at all.) -/
theorem pipeline_message_limit_overrun :
    totalPublished 2 0 [[true], [true, true]] = 3 ∧
    2 < totalPublished 2 0 [[true], [true, true]] := by
  refine ⟨by decide, by decide⟩

/-! ### ContentValidator
(`recovery_improved_json.py`, `is_valid_content`).

The argument is a decoded Python string; it is modelled as its list of code
points.  `str.isprintable` and `str.isalnum` are modelled at the ASCII
level (`32..126` printable, `0-9A-Za-z` alphanumeric), which matches Python
on every ASCII code point.  The source ratio test is
`printable < len(content[:200]) * 0.7` with a float literal; for
`n = len(content[:200]) ≤ 200` the double product `n * 0.7` rounds to the
exact rational `7n/10` whenever that is an integer and lies well within the
same unit interval otherwise, so the comparison below with
`10 * printable < 7 * n` is exact. -/

def pyIsAlnumChar (c : Nat) : Bool :=
  (decide (48 ≤ c) && decide (c ≤ 57)) || (decide (65 ≤ c) && decide (c ≤ 90)) ||
    (decide (97 ≤ c) && decide (c ≤ 122))

/-- `content.replace('\n', '').replace('\r', '')`. -/
def removeNLCR (s : List Nat) : List Nat :=
  s.filter (fun c => !(c == 10 || c == 13))

/-- `c.isprintable() or c in '\n\r\t'`. -/
def printableOrWsClass (c : Nat) : Bool :=
  (decide (32 ≤ c) && decide (c ≤ 126)) || c == 10 || c == 13 || c == 9

/-- `str.isalnum()`: nonempty and all alphanumeric. -/
def pyStrAlnum (s : List Nat) : Bool := !s.isEmpty && s.all pyIsAlnumChar

def is_valid_content (s : List Nat) : Bool :=
  if s.length < 10 then false
  else if 10 * ((s.take 200).countP printableOrWsClass) < 7 * (s.take 200).length then
    false
  else if pyStrAlnum (removeNLCR (pyBytesStrip s)) && decide (100 < s.length) then
    false
  else true

theorem alnum_not_ws {c : Nat} (h : pyIsAlnumChar c = true) : isPyWs c = false := by
  simp only [pyIsAlnumChar, Bool.or_eq_true, Bool.and_eq_true, decide_eq_true_eq] at h
  simp only [isPyWs, Bool.or_eq_false_iff, beq_eq_false_iff_ne, ne_eq]
  omega

theorem removeNLCR_dropWhile (l : List Nat)
    (h : ∀ c ∈ l, pyIsAlnumChar c = true ∨ c = 10 ∨ c = 13) :
    removeNLCR (l.dropWhile isPyWs) = removeNLCR l := by
  induction l with
  | nil => rfl
  | cons c l ih =>
    by_cases hws : isPyWs c = true
    · rw [List.dropWhile_cons_of_pos hws]
      have hc : c = 10 ∨ c = 13 := by
        rcases h c (List.mem_cons_self c l) with ha | hb
        · rw [alnum_not_ws ha] at hws; cases hws
        · exact hb
      have hdrop : removeNLCR (c :: l) = removeNLCR l := by
        simp only [removeNLCR, List.filter_cons]
        rcases hc with rfl | rfl <;> simp
      rw [hdrop]
      exact ih (fun x hx => h x (List.mem_cons_of_mem c hx))
    · rw [List.dropWhile_cons_of_neg hws]

theorem removeNLCR_strip (s : List Nat)
    (h : ∀ c ∈ s, pyIsAlnumChar c = true ∨ c = 10 ∨ c = 13) :
    removeNLCR (pyBytesStrip s) = removeNLCR s := by
  have hsub1 : ∀ c ∈ s.dropWhile isPyWs, c ∈ s :=
    fun c hc => List.Sublist.mem hc (List.dropWhile_sublist isPyWs)
  have h1 : removeNLCR (s.dropWhile isPyWs) = removeNLCR s := removeNLCR_dropWhile s h
  have h2 : removeNLCR ((s.dropWhile isPyWs).reverse.dropWhile isPyWs) =
      removeNLCR ((s.dropWhile isPyWs).reverse) := by
    apply removeNLCR_dropWhile
    intro c hc
    exact h c (hsub1 c (List.mem_reverse.mp hc))
  unfold pyBytesStrip
  calc removeNLCR ((s.dropWhile isPyWs).reverse.dropWhile isPyWs).reverse
      = (removeNLCR ((s.dropWhile isPyWs).reverse.dropWhile isPyWs)).reverse := by
        simp [removeNLCR, List.filter_reverse]
    _ = (removeNLCR ((s.dropWhile isPyWs).reverse)).reverse := by rw [h2]
    _ = ((removeNLCR (s.dropWhile isPyWs)).reverse).reverse := by
        simp [removeNLCR, List.filter_reverse]
    _ = removeNLCR (s.dropWhile isPyWs) := by rw [List.reverse_reverse]
    _ = removeNLCR s := h1

/-- A 150-character string of only letters. -/
def c4alnum150 : List Nat := List.replicate 150 97

/-- A 150-character JSON-like string: `{"a": "bbb...b"}` with punctuation
and a space. -/
def c4json150 : List Nat :=
  [123, 34, 97, 34, 58, 32, 34] ++ List.replicate 141 98 ++ [34, 125]

set_option maxRecDepth 4000 in
/-- C4: the validator rejects strings shorter than 10 characters; rejects
strings whose first 200 characters are less than 70% printable or
whitespace-class; rejects strings that are purely alphanumeric after
removing newlines and carriage-returns (nonempty, in accordance with
Python's `isalnum`) and longer than 100 characters; consequently it rejects
a 150-character all-letters string and accepts a 150-character JSON-like
string with punctuation and whitespace. -/
theorem contentValidator_rules :
    (∀ s : List Nat, s.length < 10 → is_valid_content s = false)
    ∧ (∀ s : List Nat,
        10 * ((s.take 200).countP printableOrWsClass) < 7 * (s.take 200).length →
        is_valid_content s = false)
    ∧ (∀ s : List Nat, removeNLCR s ≠ [] → (removeNLCR s).all pyIsAlnumChar = true →
        100 < s.length → is_valid_content s = false)
    ∧ is_valid_content c4alnum150 = false
    ∧ is_valid_content c4json150 = true := by
  refine ⟨?_, ?_, ?_, by decide, by decide⟩
  · intro s h
    simp [is_valid_content, h]
  · intro s h
    unfold is_valid_content
    -- `split_ifs` resolves the ratio condition with `h`, leaving only
    -- `false` branches
    split_ifs <;> rfl
  · intro s hne hall hlen
    have hchars : ∀ c ∈ s, pyIsAlnumChar c = true ∨ c = 10 ∨ c = 13 := by
      intro c hc
      by_cases h10 : c = 10
      · exact Or.inr (Or.inl h10)
      by_cases h13 : c = 13
      · exact Or.inr (Or.inr h13)
      left
      have hcmem : c ∈ removeNLCR s := by
        simp only [removeNLCR, List.mem_filter]
        refine ⟨hc, ?_⟩
        simp [h10, h13]
      exact List.all_eq_true.mp hall c hcmem
    have hstrip := removeNLCR_strip s hchars
    have hcond : pyStrAlnum (removeNLCR (pyBytesStrip s)) && decide (100 < s.length) = true := by
      rw [hstrip]
      simp only [pyStrAlnum, Bool.and_eq_true, decide_eq_true_eq]
      refine ⟨⟨?_, hall⟩, hlen⟩
      simp [List.isEmpty_iff, hne]
    unfold is_valid_content
    split_ifs with h1 h2 h3
    · rfl
    · rfl
    · rfl
    · exact absurd hcond (by simp [h3])

/-- Concrete checks of the C4 theorem: a short string, a noise-heavy
string, and a 102-letter string, all rejected. -/
theorem contentValidator_rules_witness :
    is_valid_content [97] = false ∧
    is_valid_content [0, 0, 0, 0, 0, 0, 0, 65, 66, 67] = false ∧
    is_valid_content (List.replicate 102 97) = false :=
  ⟨contentValidator_rules.1 [97] (by decide),
   contentValidator_rules.2.1 [0, 0, 0, 0, 0, 0, 0, 65, 66, 67] (by decide),
   contentValidator_rules.2.2.1 (List.replicate 102 97) (by decide) (by decide) (by decide)⟩

/-! ### SegmentCatalog
(`scan_files` in both source files; the two copies are identical).

A directory listing is modelled as a list of filenames, each a `List Char`.
The source stores `os.path.join(directory, filename)` and later sorts by
`int(os.path.basename(f).split('.')[0])`; joining with the directory and
taking the basename back cancel, so the model works on bare filenames.
CPython's `list.sort(key=...)` computes every key (raising `ValueError` out
of `scan_files` if `int()` fails on any of them) and then sorts stably;
this is modelled by the all-keys-defined test and a stable `mergeSort`.
`int()` accepts surrounding whitespace and an optional sign before the
digits (numeric-literal underscores are not modelled). -/

def isSpaceChar (c : Char) : Bool :=
  c == ' ' || c == '\t' || c == '\n' || c == '\r' ||
    (c.toNat == 11) || (c.toNat == 12)

def isDigitChar (c : Char) : Bool :=
  decide (48 ≤ c.toNat) && decide (c.toNat ≤ 57)

def digitsToNat (l : List Char) : Option Nat :=
  if l ≠ [] ∧ l.all isDigitChar then
    some (l.foldl (fun acc c => acc * 10 + (c.toNat - 48)) 0)
  else none

/-- Python `int(str)` on the characters of `str`. -/
def pyIntOfChars (l : List Char) : Option Int :=
  let t := ((l.dropWhile isSpaceChar).reverse.dropWhile isSpaceChar).reverse
  match t with
  | '-' :: rest => (digitsToNat rest).map (fun n => -(n : Int))
  | '+' :: rest => (digitsToNat rest).map (fun n => (n : Int))
  | _ => (digitsToNat t).map (fun n => (n : Int))

/-- `filename.endswith('.qs')`. -/
def hasQsExt (n : List Char) : Bool :=
  decide (3 ≤ n.length) && (n.drop (n.length - 3) == ['.', 'q', 's'])

/-- `basename(f).split('.')[0]`: the prefix before the first dot. -/
def prefixBeforeDot (n : List Char) : List Char :=
  n.takeWhile (fun c => !(c == '.'))

/-- The sort key `int(os.path.basename(f).split('.')[0])`, `none` when
`int()` raises `ValueError`. -/
def sortKey (n : List Char) : Option Int := pyIntOfChars (prefixBeforeDot n)

def keyVal (n : List Char) : Int := (sortKey n).getD 0

/-- `scan_files`: filter the listing by the `.qs` extension, then sort by
the numeric prefix.  A filename whose prefix `int()` cannot parse makes the
sort raise, modelled as `Except.error`. -/
def scan_files (listing : List (List Char)) : Except Unit (List (List Char)) :=
  let qs := listing.filter hasQsExt
  if qs.all (fun f => (sortKey f).isSome) then
    Except.ok (qs.mergeSort (fun a b => decide (keyVal a ≤ keyVal b)))
  else Except.error ()

/-- The listing `abc.qs, 1.qs, 2.qs`: `abc` has no numeric prefix. -/
def c6listing : List (List Char) :=
  [['a', 'b', 'c', '.', 'q', 's'], ['1', '.', 'q', 's'], ['2', '.', 'q', 's']]

/-- C6 counterexample: on a listing containing `abc.qs` the catalog does
not skip the bad file and continue — `int('abc')` raises `ValueError`
inside the sort and `scan_files` aborts; in particular the run does not
produce the catalog `[1.qs, 2.qs]` the claim's skip policy would give. -/
theorem segmentCatalog_skip_cex :
    scan_files c6listing = Except.error () ∧
    scan_files c6listing ≠ Except.ok [['1', '.', 'q', 's'], ['2', '.', 'q', 's']] := by
  have h1 : scan_files c6listing = Except.error () := by rfl
  refine ⟨h1, ?_⟩
  rw [h1]
  intro h
  exact Except.noConfusion h

/-- C6 (amended): a `.qs` file whose name has no parseable numeric prefix
causes the whole scan to fail (Python: `ValueError` raised by the sort
key), aborting the run — the file is not skipped and the remaining files
are not cataloged. -/
theorem segmentCatalog_abort (listing : List (List Char)) (f : List Char)
    (hf : f ∈ listing) (hqs : hasQsExt f = true) (hbad : sortKey f = none) :
    scan_files listing = Except.error () := by
  unfold scan_files
  have hmem : f ∈ listing.filter hasQsExt := List.mem_filter.mpr ⟨hf, hqs⟩
  have hall : (listing.filter hasQsExt).all (fun f => (sortKey f).isSome) = false := by
    rw [List.all_eq_false]
    exact ⟨f, hmem, by simp [hbad]⟩
  simp [hall]

/-- Concrete check of the C6 theorem at the `abc.qs` listing. -/
theorem segmentCatalog_abort_witness :
    scan_files c6listing = Except.error () :=
  segmentCatalog_abort c6listing ['a', 'b', 'c', '.', 'q', 's']
    (by decide) (by decide) (by rfl)

/-- C9: when every `.qs` filename in the listing has a parseable integer
prefix, the catalog succeeds, contains exactly the `.qs` files, and is
sorted by ascending integer prefix — for every input listing order. -/
theorem segmentCatalog_sorted (listing : List (List Char))
    (h : (listing.filter hasQsExt).all (fun f => (sortKey f).isSome) = true) :
    ∃ out, scan_files listing = Except.ok out ∧
      out.Perm (listing.filter hasQsExt) ∧
      out.Pairwise (fun a b => keyVal a ≤ keyVal b) := by
  refine ⟨(listing.filter hasQsExt).mergeSort (fun a b => decide (keyVal a ≤ keyVal b)),
    ?_, ?_, ?_⟩
  · unfold scan_files
    simp [h]
  · exact List.mergeSort_perm _ _
  · have hs := @List.sorted_mergeSort (List Char) (fun a b => decide (keyVal a ≤ keyVal b))
      (fun a b c h1 h2 => by
        simp only [decide_eq_true_eq] at h1 h2 ⊢
        omega)
      (fun a b => by
        simp only [Bool.or_eq_true, decide_eq_true_eq]
        omega)
      (listing.filter hasQsExt)
    exact hs.imp (fun hab => by simpa using hab)

/-- Concrete check of the C9 theorem: a shuffled listing with an extra
non-`.qs` entry. -/
theorem segmentCatalog_sorted_witness :
    ∃ out,
      scan_files [['2', '.', 'q', 's'], ['1', '0', '.', 'q', 's'],
          ['1', '.', 'q', 's'], ['x', '.', 't', 'x', 't']] = Except.ok out ∧
      out.Perm ([['2', '.', 'q', 's'], ['1', '0', '.', 'q', 's'],
          ['1', '.', 'q', 's'], ['x', '.', 't', 'x', 't']].filter hasQsExt) ∧
      out.Pairwise (fun a b => keyVal a ≤ keyVal b) :=
  segmentCatalog_sorted _ (by decide)

/-! ### RawScanner (Strategy A)
(`rabbitmq_recovery.py`, `extract_and_publish_exact_markers`).

The source scans `data = file_data[64:]` for 4-byte start markers
(`0x6d 00 00 00`; the `ord('m')` variant is the same byte value) and end
markers (`0x74 00 00 00`; `ord('t')` likewise), both with
`for i in range(len(data) - 4)` — note the scan stops at `len(data) - 5`,
one position short of the last offset at which the 4-byte pattern could
still fit.  Each start position is paired with the first end position
strictly after it; the candidate slice runs from the first `{` after the
start (when before the paired end) through the last `}}` inside
`[json_start, end)`.  The publish step decodes with `errors='replace'`,
which never fails, so every candidate slice becomes one published message;
`rawCandidates` therefore models the per-file message list. -/

def isTagAt (d : List Nat) (t i : Nat) : Bool :=
  (d.getD i 0 == t) && (d.getD (i + 1) 0 == 0) &&
    (d.getD (i + 2) 0 == 0) && (d.getD (i + 3) 0 == 0)

def startPositions (d : List Nat) : List Nat :=
  (List.range (d.length - 4)).filter (isTagAt d 109)

def endPositions (d : List Nat) : List Nat :=
  (List.range (d.length - 4)).filter (isTagAt d 116)

/-- The first end-marker position strictly after `s` (the source walks
`end_positions`, which is ascending by construction, and keeps the first
match). -/
def nextEnd (d : List Nat) (s : Nat) : Option Nat :=
  (endPositions d).find? (fun e => decide (s < e))

/-- Python `data.rfind(bytes([b0, b1]), lo, hi)`: the last index in
`[lo, hi - 2]` where the two-byte pattern occurs. -/
def pyRfind2 (d : List Nat) (b0 b1 lo hi : Nat) : Option Nat :=
  ((List.range d.length).filter
    (fun i => decide (lo ≤ i) && decide (i + 2 ≤ hi) &&
      (d.getD i 0 == b0) && (d.getD (i + 1) 0 == b1))).getLast?

/-- The candidate message produced for the start marker at `s`, if any:
pair with the next end marker, find the JSON start and the last `}}`. -/
def candidateFor (d : List Nat) (s : Nat) : Option (List Nat) :=
  match nextEnd d s with
  | none => none
  | some e =>
    match pyFindFrom d 123 s with
    | none => none
    | some js =>
      if s < js ∧ js < e then
        match pyRfind2 d 125 125 js e with
        | none => none
        | some je => if js < je then some (pySlice d js (je + 2)) else none
      else none

/-- The messages Strategy A publishes from one file. -/
def rawCandidates (fileData : List Nat) : List (List Nat) :=
  let d := fileData.drop 64
  (startPositions d).filterMap (candidateFor d)

/-! The claim's reading, for the counterexample: tag positions are ALL
offsets where the 4-byte pattern fits (`i + 3 < len`), not just those the
source's `range(len(data) - 4)` visits. -/

def claimTagPositions (d : List Nat) (t : Nat) : List Nat :=
  (List.range d.length).filter (fun i => decide (i + 3 < d.length) && isTagAt d t i)

def claimNextEnd (d : List Nat) (s : Nat) : Option Nat :=
  (claimTagPositions d 116).find? (fun e => decide (s < e))

def claimCandidateFor (d : List Nat) (s : Nat) : Option (List Nat) :=
  match claimNextEnd d s with
  | none => none
  | some e =>
    match pyFindFrom d 123 s with
    | none => none
    | some js =>
      if s < js ∧ js < e then
        match pyRfind2 d 125 125 js e with
        | none => none
        | some je => if js < je then some (pySlice d js (je + 2)) else none
      else none

def claimRawCandidates (fileData : List Nat) : List (List Nat) :=
  let d := fileData.drop 64
  (claimTagPositions d 109).filterMap (claimCandidateFor d)

/-- A segment file whose end marker's 4-byte pattern ends exactly at the
last byte of the buffer: 64-byte header, start marker, `{}}`, end marker. -/
def c8ex : List Nat :=
  List.replicate 64 0 ++ [109, 0, 0, 0, 123, 125, 125, 116, 0, 0, 0]

/-- C8 counterexample: on `c8ex` the end-tag pattern `0x74 00 00 00` starts
at post-header offset 7 and fits the buffer, so under the claim the start
marker at 0 is paired with it and the candidate `{}}` is produced; but the
source's `range(len(data) - 4)` never visits offset 7, no end marker is
found, and no message is extracted. -/
theorem rawScanner_pairing_cex :
    rawCandidates c8ex = [] ∧
    claimRawCandidates c8ex = [[123, 125, 125]] ∧
    rawCandidates c8ex ≠ claimRawCandidates c8ex := by
  refine ⟨by decide, by decide, by decide⟩

theorem find?_pairwise_min {p : Nat → Bool} :
    ∀ {l : List Nat}, l.Pairwise (· < ·) → ∀ {a : Nat}, l.find? p = some a →
      ∀ b ∈ l, p b = true → a ≤ b := by
  intro l
  induction l with
  | nil => intro _ a ha; cases ha
  | cons x xs ih =>
    intro hs a ha b hb hpb
    by_cases hx : p x = true
    · rw [List.find?_cons_of_pos xs hx] at ha
      simp only [Option.some.injEq] at ha
      subst ha
      rcases List.mem_cons.mp hb with rfl | hb
      · exact le_refl _
      · exact le_of_lt ((List.pairwise_cons.mp hs).1 b hb)
    · rw [List.find?_cons_of_neg xs (by simpa using hx)] at ha
      rcases List.mem_cons.mp hb with rfl | hb
      · exact absurd hpb hx
      · exact ih (List.pairwise_cons.mp hs).2 ha b hb hpb

theorem pyRfind2_spec {d : List Nat} {b0 b1 lo hi je : Nat}
    (h : pyRfind2 d b0 b1 lo hi = some je) :
    je < d.length ∧ lo ≤ je ∧ je + 2 ≤ hi ∧
      d.getD je 0 = b0 ∧ d.getD (je + 1) 0 = b1 ∧
      ∀ k, k < d.length → lo ≤ k → k + 2 ≤ hi →
        d.getD k 0 = b0 → d.getD (k + 1) 0 = b1 → k ≤ je := by
  have hmem := getLast?_mem h
  rw [mem_filter_range] at hmem
  obtain ⟨hlt, hp⟩ := hmem
  simp only [Bool.and_eq_true, decide_eq_true_eq, beq_iff_eq] at hp
  refine ⟨hlt, hp.1.1.1, hp.1.1.2, hp.1.2, hp.2, ?_⟩
  intro k hk hlo hhi hb0 hb1
  have hkmem : k ∈ (List.range d.length).filter
      (fun i => decide (lo ≤ i) && decide (i + 2 ≤ hi) &&
        (d.getD i 0 == b0) && (d.getD (i + 1) 0 == b1)) := by
    rw [mem_filter_range]
    refine ⟨hk, ?_⟩
    simp only [Bool.and_eq_true, decide_eq_true_eq, beq_iff_eq]
    exact ⟨⟨⟨hlo, hhi⟩, hb0⟩, hb1⟩
  rcases getLast?_pairwise (pairwise_filter_range _ _) h k hkmem with rfl | hlt2
  · exact le_refl k
  · exact le_of_lt hlt2

/-- C8 (amended): same pairing and slicing as the claim describes, except
that a marker is recognised only at offsets `i` with `i + 4 < len` — the
source's `range(len(data) - 4)` stops one short, so a marker whose 4-byte
pattern ends exactly at the buffer's last byte is not detected (the
counterexample).  With that qualification: start/end markers are exactly
the in-range pattern positions; the paired end is the LEAST end-marker
offset strictly after the start; and a produced candidate is the slice
from the first `{` after the start (which lies strictly between the start
and the paired end) through two bytes past the LAST `}}` occurrence fitting
inside `[jsonStart, end)`. -/
theorem rawScanner_pairing (d : List Nat) :
    (∀ s, s ∈ startPositions d ↔
      s + 4 < d.length ∧ d.getD s 0 = 109 ∧ d.getD (s + 1) 0 = 0 ∧
        d.getD (s + 2) 0 = 0 ∧ d.getD (s + 3) 0 = 0)
    ∧ (∀ e, e ∈ endPositions d ↔
      e + 4 < d.length ∧ d.getD e 0 = 116 ∧ d.getD (e + 1) 0 = 0 ∧
        d.getD (e + 2) 0 = 0 ∧ d.getD (e + 3) 0 = 0)
    ∧ (∀ s e, nextEnd d s = some e →
        e ∈ endPositions d ∧ s < e ∧ ∀ e' ∈ endPositions d, s < e' → e ≤ e')
    ∧ (∀ s msg, candidateFor d s = some msg →
        ∃ e js je, nextEnd d s = some e ∧
          js < d.length ∧ s < js ∧ js < e ∧ d.getD js 0 = 123 ∧
          (∀ k, s ≤ k → k < js → d.getD k 0 ≠ 123) ∧
          js < je ∧ je + 2 ≤ e ∧ d.getD je 0 = 125 ∧ d.getD (je + 1) 0 = 125 ∧
          (∀ k, js ≤ k → k + 2 ≤ e → d.getD k 0 = 125 → d.getD (k + 1) 0 = 125 →
            k ≤ je) ∧
          msg = pySlice d js (je + 2)) := by
  have hiff : ∀ t i, i ∈ (List.range (d.length - 4)).filter (isTagAt d t) ↔
      i + 4 < d.length ∧ d.getD i 0 = t ∧ d.getD (i + 1) 0 = 0 ∧
        d.getD (i + 2) 0 = 0 ∧ d.getD (i + 3) 0 = 0 := by
    intro t i
    rw [mem_filter_range]
    constructor
    · rintro ⟨hi, hp⟩
      simp only [isTagAt, Bool.and_eq_true, beq_iff_eq] at hp
      exact ⟨by omega, hp.1.1.1, hp.1.1.2, hp.1.2, hp.2⟩
    · rintro ⟨hi, h0, h1, h2, h3⟩
      refine ⟨by omega, ?_⟩
      simp only [isTagAt, Bool.and_eq_true, beq_iff_eq]
      exact ⟨⟨⟨h0, h1⟩, h2⟩, h3⟩
  refine ⟨hiff 109, hiff 116, ?_, ?_⟩
  · intro s e he
    refine ⟨List.mem_of_find?_eq_some he, by simpa using List.find?_some he, ?_⟩
    intro e' he' hse'
    exact find?_pairwise_min (pairwise_filter_range _ _) he e' he' (by simpa using hse')
  · intro s msg hmsg
    cases hne : nextEnd d s with
    | none => simp [candidateFor, hne] at hmsg
    | some e =>
      cases hjs : pyFindFrom d 123 s with
      | none => simp [candidateFor, hne, hjs] at hmsg
      | some js =>
        by_cases hcond : s < js ∧ js < e
        · cases hje : pyRfind2 d 125 125 js e with
          | none => simp [candidateFor, hne, hjs, hcond, hje] at hmsg
          | some je =>
            by_cases hlt : js < je
            · have hmsg' : msg = pySlice d js (je + 2) := by
                simp [candidateFor, hne, hjs, hcond, hje, hlt] at hmsg
                exact hmsg.symm
              have hjspec := pyFindFrom_spec hjs
              have hespec := pyRfind2_spec hje
              have hee : e + 4 < d.length := by
                have := (hiff 116 e).mp (List.mem_of_find?_eq_some hne)
                exact this.1
              refine ⟨e, js, je, rfl, hjspec.1, hcond.1, hcond.2, hjspec.2.2.1,
                ?_, hlt, hespec.2.2.1, hespec.2.2.2.1, hespec.2.2.2.2.1, ?_, hmsg'⟩
              · intro k hsk hkj hk123
                have := hjspec.2.2.2 k (by omega) hsk hk123
                omega
              · intro k hjk hke h125a h125b
                exact hespec.2.2.2.2.2 k (by omega) hjk hke h125a h125b
            · simp [candidateFor, hne, hjs, hcond, hje, hlt] at hmsg
        · simp [candidateFor, hne, hjs, hcond] at hmsg

/-- A segment file on which Strategy A produces one message: 64-byte
header, start marker, `{}}`, end marker, one trailing byte (so that the end
marker lies in the source's scan range). -/
def c8good : List Nat :=
  List.replicate 64 0 ++ [109, 0, 0, 0, 123, 125, 125, 116, 0, 0, 0, 0]

/-- Concrete check of the C8 theorem on `c8good`: the pairing facts at
start 0 / end 7 and the candidate characterisation for the produced
message `{}}`. -/
theorem rawScanner_pairing_witness :
    (7 ∈ endPositions (c8good.drop 64) ∧ 0 < 7 ∧
      ∀ e' ∈ endPositions (c8good.drop 64), 0 < e' → 7 ≤ e') ∧
    (∃ e js je, nextEnd (c8good.drop 64) 0 = some e ∧
      js < (c8good.drop 64).length ∧ 0 < js ∧ js < e ∧
      (c8good.drop 64).getD js 0 = 123 ∧
      (∀ k, 0 ≤ k → k < js → (c8good.drop 64).getD k 0 ≠ 123) ∧
      js < je ∧ je + 2 ≤ e ∧ (c8good.drop 64).getD je 0 = 125 ∧
      (c8good.drop 64).getD (je + 1) 0 = 125 ∧
      (∀ k, js ≤ k → k + 2 ≤ e → (c8good.drop 64).getD k 0 = 125 →
        (c8good.drop 64).getD (k + 1) 0 = 125 → k ≤ je) ∧
      [123, 125, 125] = pySlice (c8good.drop 64) js (je + 2)) :=
  ⟨(rawScanner_pairing (c8good.drop 64)).2.2.1 0 7 (by decide),
   (rawScanner_pairing (c8good.drop 64)).2.2.2 0 [123, 125, 125] (by decide)⟩

end Recovery
